import Mathlib

set_option maxHeartbeats 1000000

namespace Dataviz

/-! Shallow embedding of the ASCII-chart rendering core of the
repository (`logBarChart`, `logDotChart`, `logLineChart`).  The
repository sources contain only the API documentation of these
functions, so the rendering core itself is modelled from the spec;
numeric values are rationals, dates are their millisecond timestamps. -/

/-- Modelled from the spec (§4.2): arithmetic mean of a list of
rationals, used by the line-chart downsampler's bucket reduction.
The implementation of the chart renderers is missing from the
repository sources (only their API documentation is present). -/
def mean (l : List ℚ) : ℚ := l.sum / l.length

/-- Modelled from the spec (§4.2): bucket `i` of a series of length `n`
split into `w` contiguous, approximately equal-size buckets by index
position: the slice of indices from `i*n/w` (inclusive) to
`(i+1)*n/w` (exclusive). -/
def bucket (w : ℕ) (s : List (ℚ × ℚ)) (i : ℕ) : List (ℚ × ℚ) :=
  (s.drop (i * s.length / w)).take ((i + 1) * s.length / w - i * s.length / w)

/-- Modelled from the spec (§4.2, Downsampler): if `series.length ≤ w`
the series is returned unchanged; otherwise it is partitioned into `w`
contiguous index buckets and each bucket is reduced to the pair
(mean of its keys, mean of its values). -/
def downsample (w : ℕ) (s : List (ℚ × ℚ)) : List (ℚ × ℚ) :=
  if s.length ≤ w then s
  else (List.range w).map (fun i =>
    (mean ((bucket w s i).map Prod.fst), mean ((bucket w s i).map Prod.snd)))

/-- Modelled from the spec (§3, §7): a raw cell value of an input
Record as the charts see it — a finite number (a Date already replaced
by its numeric timestamp), a non-finite number, or a missing value. -/
inductive CellValue where
  | finite (q : ℚ)
  | nan
  | posInf
  | negInf
  | null
  | undef
deriving DecidableEq

/-- A cell is a valid numeric sample iff it is a finite number. -/
def CellValue.isValidNumber : CellValue → Bool
  | .finite _ => true
  | _ => false

/-- Modelled from the spec (§7): the error classes of the rendering
core; `invalidData` is raised when a required value is null/undefined
or non-numeric where a number is required. -/
inductive ChartError where
  | invalidData
deriving DecidableEq

/-- Modelled from the spec (§7, InvalidData): a single required numeric
cell either yields its finite value or fails the call. -/
def validateCell : CellValue → Except ChartError ℚ
  | .finite q => .ok q
  | _ => .error .invalidData

/-- Modelled from the spec (§9): the single validation pass resolving a
dot/line series into strongly-typed `(key, value)` pairs, failing with
`InvalidData` on the first bad cell. -/
def validateSeries :
    List (CellValue × CellValue) → Except ChartError (List (ℚ × ℚ))
  | [] => .ok []
  | (cx, cy) :: rest =>
    match validateCell cx, validateCell cy, validateSeries rest with
    | .ok k, .ok v, .ok ps => .ok ((k, v) :: ps)
    | _, _, _ => .error .invalidData

/-- Modelled from the spec (§9): the validation pass for bar-chart
rows `(label, value)`, failing with `InvalidData` on a bad value. -/
def validateLabeled :
    List (String × CellValue) → Except ChartError (List (String × ℚ))
  | [] => .ok []
  | (lab, c) :: rest =>
    match validateCell c, validateLabeled rest with
    | .ok v, .ok ps => .ok ((lab, v) :: ps)
    | _, _ => .error .invalidData

/-- Minimum of a list of rationals (0 on the empty list). -/
def listMin : List ℚ → ℚ
  | [] => 0
  | [v] => v
  | v :: w :: rest => min v (listMin (w :: rest))

/-- Maximum of a list of rationals (0 on the empty list). -/
def listMax : List ℚ → ℚ
  | [] => 0
  | [v] => v
  | v :: w :: rest => max v (listMax (w :: rest))

/-- Modelled from the spec (§4.1, Scale Calculator): the `{min, max}`
domain derived from a series of axis values. -/
def domainOf (l : List ℚ) : ℚ × ℚ := (listMin l, listMax l)

/-- Modelled from the spec (§4.1 edge case): the "small epsilon" used
to expand a degenerate domain; its value is unspecified by the spec and
fixed here as `1/2`. -/
def epsilon : ℚ := 1 / 2

/-- Modelled from the spec (§4.1 edge case): if all values in the
domain are equal, expand the domain symmetrically by a small epsilon to
avoid zero-division in the mapping step. -/
def adjustDomain (d : ℚ × ℚ) : ℚ × ℚ :=
  if d.1 = d.2 then (d.1 - epsilon, d.2 + epsilon) else d

/-- Modelled from the spec (§4.3, dot chart): key `k` in domain
`[xmin, xmax]` maps to column `round((k - xmin)/(xmax - xmin)*(width-1))`. -/
def colOf (d : ℚ × ℚ) (w : ℕ) (k : ℚ) : ℕ :=
  (round ((k - d.1) / (d.2 - d.1) * ((w - 1 : ℕ) : ℚ))).toNat

/-- Modelled from the spec (§4.3, dot chart): value `v` in domain
`[ymin, ymax]` maps to row `round((ymax - v)/(ymax - ymin)*(height-1))`,
row 0 being the top (`ymax`). -/
def rowOf (d : ℚ × ℚ) (h : ℕ) (v : ℚ) : ℕ :=
  (round ((d.2 - v) / (d.2 - d.1) * ((h - 1 : ℕ) : ℚ))).toNat

/-- The (adjusted) x-axis domain of a series: derived from its keys,
degenerate domains expanded. -/
def xdomain (pts : List (ℚ × ℚ)) : ℚ × ℚ :=
  adjustDomain (domainOf (pts.map Prod.fst))

/-- The (adjusted) y-axis domain of a series: derived from its values,
degenerate domains expanded. -/
def ydomain (pts : List (ℚ × ℚ)) : ℚ × ℚ :=
  adjustDomain (domainOf (pts.map Prod.snd))

/-- Modelled from the spec (§4.3): the marker cells `(col, row)` of a
dot chart for a validated series, with the x/y domains derived from the
series and degenerate domains expanded. -/
def dotCells (w h : ℕ) (pts : List (ℚ × ℚ)) : List (ℕ × ℕ) :=
  pts.map (fun p => (colOf (xdomain pts) w p.1, rowOf (ydomain pts) h p.2))

/-- Modelled from the spec (§4.3, §4.5): the marker cells of a line
chart: scales are computed from the series, the series is then
downsampled to the chart width, and the (possibly downsampled) points
are mapped with the same coordinate mapping as the dot chart. -/
def lineCells (w h : ℕ) (pts : List (ℚ × ℚ)) : List (ℕ × ℕ) :=
  (downsample w pts).map
    (fun p => (colOf (xdomain pts) w p.1, rowOf (ydomain pts) h p.2))

/-- Modelled from the spec: `logDotChart`'s rendering core, reduced to
the marker cells it draws.  `width`/`height` default to 60/20 per the
API documentation in the sources; the call validates its data first and
fails with `InvalidData` before emitting anything. -/
def logDotChart (data : List (CellValue × CellValue))
    (width height : Option ℕ) : Except ChartError (List (ℕ × ℕ)) :=
  match validateSeries data with
  | .error e => .error e
  | .ok pts => .ok (dotCells (width.getD 60) (height.getD 20) pts)

/-- Modelled from the spec: `logLineChart`'s rendering core, reduced to
the marker cells of its (possibly downsampled) points.  `width`/`height`
default to 60/20 per the API documentation in the sources. -/
def logLineChart (data : List (CellValue × CellValue))
    (width height : Option ℕ) : Except ChartError (List (ℕ × ℕ)) :=
  match validateSeries data with
  | .error e => .error e
  | .ok pts => .ok (lineCells (width.getD 60) (height.getD 20) pts)

/-- Modelled from the spec (§4.3, bar chart): bar length in characters
is `round(value / domainMax * barWidth)`; zero or negative values
render as zero-length bars. -/
def barLength (w : ℕ) (domainMax v : ℚ) : ℕ :=
  if v ≤ 0 then 0 else (round (v / domainMax * (w : ℚ))).toNat

/-- The character a bar is drawn with. -/
def barChar : Char := '='

/-- One rendered bar-chart row: its label, its drawn bar and its raw
value. -/
structure BarRow where
  label : String
  bar : String
  value : ℚ

/-- Modelled from the spec (§4.3): the rendered rows of a bar chart,
category by category in input order, with `domainMax` the maximum value
across all bars. -/
def renderBarRows (w : ℕ) (vals : List (String × ℚ)) : List BarRow :=
  let m := listMax (vals.map Prod.snd)
  vals.map (fun r =>
    ⟨r.1, String.mk (List.replicate (barLength w m r.2) barChar), r.2⟩)

/-- Modelled from the spec: `logBarChart`'s rendering core, reduced to
its rendered rows.  The maximum bar `width` defaults to 40 per the API
documentation in the sources; the call validates its data first and
fails with `InvalidData` before emitting anything. -/
def logBarChart (data : List (String × CellValue)) (width : Option ℕ) :
    Except ChartError (List BarRow) :=
  match validateLabeled data with
  | .error e => .error e
  | .ok vals => .ok (renderBarRows (width.getD 40) vals)

/-- Modelled from the spec (§4.1): the `{min, max}` domain used for one
small-multiples group: the global domain across all groups when
`fixedScales` is true, the group's own domain otherwise. -/
def domainForGroup (groups : List (List ℚ)) (fixedScales : Bool)
    (g : List ℚ) : ℚ × ℚ :=
  if fixedScales then domainOf groups.flatten else domainOf g

/-- Helper for `firstSeenKeys`: walk the keys keeping the ones not yet
seen, in order. -/
def firstSeenAux : List String → List String → List String
  | _, [] => []
  | seen, k :: rest =>
    if k ∈ seen then firstSeenAux seen rest
    else k :: firstSeenAux (k :: seen) rest

/-- The distinct keys of a list in first-seen order. -/
def firstSeenKeys (l : List String) : List String := firstSeenAux [] l

/-- Modelled from the spec (§4.4 step 1): partition input rows into
groups by distinct grouping-key value, preserving first-seen order;
each group keeps its member rows in input order. -/
def groupByKey {β : Type} (rows : List (String × β)) :
    List (String × List β) :=
  (firstSeenKeys (rows.map Prod.fst)).map
    (fun k => (k, (rows.filter (fun r => decide (r.1 = k))).map Prod.snd))

/-- Helper for `chunk`: the fuel argument (instantiated with the list
length) keeps the recursion structural. -/
def chunkFuel {β : Type} (n : ℕ) : ℕ → List β → List (List β)
  | _, [] => []
  | 0, x :: xs => [x :: xs]
  | fuel + 1, x :: xs =>
    if n = 0 then [x :: xs]
    else (x :: xs).take n :: chunkFuel n fuel ((x :: xs).drop n)

/-- Split a list into consecutive chunks of `n` elements (the last
chunk may be shorter); used to tile small-multiples blocks into rows. -/
def chunk {β : Type} (n : ℕ) (l : List β) : List (List β) :=
  chunkFuel n l.length l

/-- Modelled from the spec (§4.4 step 4): the fixed column gap between
horizontally adjacent blocks. -/
def gapString : String := "   "

/-- Modelled from the spec (§4.4 step 4): concatenate the corresponding
text lines of adjacent blocks horizontally, with the fixed column gap. -/
def hcat (blockHeight : ℕ) (blocks : List (List String)) : List String :=
  (List.range blockHeight).map
    (fun j => String.intercalate gapString (blocks.map (fun b => b.getD j "")))

/-- Modelled from the spec (§4.4 step 4): tile blocks into rows of
`perRow` blocks each; groups beyond a full row wrap to a new row. -/
def tile (blockHeight perRow : ℕ) (blocks : List (List String)) :
    List (List String) :=
  (chunk perRow blocks).map (hcat blockHeight)

/-- Modelled from the spec (§4.4): the small-multiples layout engine:
group the rows by key in first-seen order, render one block per group
(title first), and tile the blocks into rows of `smallMultiplesPerRow`
blocks (default 3). -/
def renderSmallMultiples {β : Type}
    (renderBlock : String → List β → List String) (blockHeight : ℕ)
    (perRow : Option ℕ) (rows : List (String × β)) : List (List String) :=
  tile blockHeight (perRow.getD 3)
    ((groupByKey rows).map (fun g => renderBlock g.1 g.2))

lemma length_downsample (w : ℕ) (s : List (ℚ × ℚ)) :
    (downsample w s).length = if s.length ≤ w then s.length else w := by
  unfold downsample
  split <;> simp

lemma length_downsample_le (w : ℕ) (s : List (ℚ × ℚ)) (h : ¬ s.length ≤ w) :
    (downsample w s).length = w := by
  rw [length_downsample]; simp [h]

lemma take_slice {α : Type} (l : List α) (m k : ℕ) (h : m ≤ k) :
    l.take m ++ (l.drop m).take (k - m) = l.take k := by
  have hk : k = m + (k - m) := by omega
  rw [hk, List.take_add]
  simp

lemma join_buckets_aux (s : List (ℚ × ℚ)) (N w' : ℕ) (w : ℕ) :
    ((List.range w).map (fun i =>
      (s.drop (i * N / w')).take ((i + 1) * N / w' - i * N / w'))).flatten
      = s.take (w * N / w') := by
  induction w with
  | zero => simp
  | succ w ih =>
    rw [List.range_succ, List.map_append, List.flatten_append]
    simp only [List.map_cons, List.map_nil, List.flatten_cons, List.flatten_nil,
      List.append_nil, ih]
    exact take_slice s (w * N / w') ((w + 1) * N / w')
      (Nat.div_le_div_right (Nat.mul_le_mul_right N (Nat.le_succ w)))

/-- The `w` buckets are contiguous and partition the series. -/
lemma join_buckets (w : ℕ) (s : List (ℚ × ℚ)) (hw : 0 < w) :
    ((List.range w).map (bucket w s)).flatten = s := by
  have h := join_buckets_aux s s.length w w
  rw [Nat.mul_div_cancel_left s.length hw, List.take_length] at h
  exact h

lemma div_add_div_le_add_div (a b c : ℕ) : a / c + b / c ≤ (a + b) / c := by
  rcases Nat.eq_zero_or_pos c with hc | hc
  · simp [hc]
  · rw [Nat.le_div_iff_mul_le hc, Nat.add_mul]
    exact Nat.add_le_add (Nat.div_mul_le_self a c) (Nat.div_mul_le_self b c)

lemma add_div_le_div_add_div_succ (a b c : ℕ) (hc : 0 < c) :
    (a + b) / c ≤ a / c + b / c + 1 := by
  rw [Nat.add_div hc]
  split <;> omega

lemma length_bucket (w : ℕ) (s : List (ℚ × ℚ)) (i : ℕ) (hi : i < w) :
    (bucket w s i).length = (i + 1) * s.length / w - i * s.length / w := by
  have hlo : i * s.length / w ≤ (i + 1) * s.length / w :=
    Nat.div_le_div_right (Nat.mul_le_mul_right s.length (Nat.le_succ i))
  have hhi : (i + 1) * s.length / w ≤ s.length := by
    rcases Nat.eq_zero_or_pos w with hw | hw
    · simp [hw]
    · calc (i + 1) * s.length / w ≤ w * s.length / w :=
            Nat.div_le_div_right (Nat.mul_le_mul_right s.length hi)
        _ = s.length := Nat.mul_div_cancel_left s.length hw
  simp only [bucket, List.length_take, List.length_drop]
  omega

/-- Each bucket's size is within one of `n / w`: the buckets are of
approximately equal size. -/
lemma length_bucket_bounds (w : ℕ) (s : List (ℚ × ℚ)) (i : ℕ)
    (hi : i < w) (hw : 0 < w) :
    s.length / w ≤ (bucket w s i).length ∧
      (bucket w s i).length ≤ s.length / w + 1 := by
  rw [length_bucket w s i hi]
  have hsucc : (i + 1) * s.length = i * s.length + s.length := by ring
  have hlow : i * s.length / w + s.length / w ≤ (i + 1) * s.length / w := by
    rw [hsucc]; exact div_add_div_le_add_div _ _ _
  have hup : (i + 1) * s.length / w ≤ i * s.length / w + s.length / w + 1 := by
    rw [hsucc]; exact add_div_le_div_add_div_succ _ _ _ hw
  have hlo : i * s.length / w ≤ (i + 1) * s.length / w :=
    Nat.div_le_div_right (Nat.mul_le_mul_right s.length (Nat.le_succ i))
  omega

lemma downsample_getElem? (w : ℕ) (s : List (ℚ × ℚ)) (h : ¬ s.length ≤ w)
    (i : ℕ) (hi : i < w) :
    (downsample w s)[i]? =
      some (mean ((bucket w s i).map Prod.fst),
            mean ((bucket w s i).map Prod.snd)) := by
  unfold downsample
  simp [h, List.getElem?_map, hi]

lemma downsample_of_le (w : ℕ) (s : List (ℚ × ℚ)) (h : s.length ≤ w) :
    downsample w s = s := by
  unfold downsample
  simp [h]

lemma round_le_round {x y : ℚ} (h : x ≤ y) : round x ≤ round y := by
  rw [round_eq, round_eq]
  exact Int.floor_mono (by linarith)

lemma listMin_le (l : List ℚ) (v : ℚ) (hv : v ∈ l) : listMin l ≤ v := by
  induction l with
  | nil => cases hv
  | cons a rest ih =>
    cases rest with
    | nil =>
      simp only [List.mem_singleton] at hv
      simp [listMin, hv]
    | cons b r =>
      rw [show listMin (a :: b :: r) = min a (listMin (b :: r)) from rfl]
      rcases List.mem_cons.mp hv with h | h
      · subst h; exact min_le_left _ _
      · exact le_trans (min_le_right _ _) (ih h)

lemma le_listMax (l : List ℚ) (v : ℚ) (hv : v ∈ l) : v ≤ listMax l := by
  induction l with
  | nil => cases hv
  | cons a rest ih =>
    cases rest with
    | nil =>
      simp only [List.mem_singleton] at hv
      simp [listMax, hv]
    | cons b r =>
      rw [show listMax (a :: b :: r) = max a (listMax (b :: r)) from rfl]
      rcases List.mem_cons.mp hv with h | h
      · subst h; exact le_max_left _ _
      · exact le_trans (ih h) (le_max_right _ _)

lemma listMin_le_listMax (l : List ℚ) : listMin l ≤ listMax l := by
  cases l with
  | nil => simp [listMin, listMax]
  | cons a rest =>
    exact le_trans (listMin_le (a :: rest) a (List.mem_cons_self a rest))
      (le_listMax (a :: rest) a (List.mem_cons_self a rest))

lemma adjustDomain_extends (d : ℚ × ℚ) :
    (adjustDomain d).1 ≤ d.1 ∧ d.2 ≤ (adjustDomain d).2 := by
  unfold adjustDomain epsilon
  split <;> constructor <;> linarith

lemma adjustDomain_span_pos (d : ℚ × ℚ) (h : d.1 ≤ d.2) :
    (adjustDomain d).1 < (adjustDomain d).2 := by
  unfold adjustDomain epsilon
  split
  · next heq => rw [heq]; linarith
  · next hne => exact lt_of_le_of_ne h hne

lemma domain_span_pos (l : List ℚ) :
    (adjustDomain (domainOf l)).1 < (adjustDomain (domainOf l)).2 :=
  adjustDomain_span_pos _ (listMin_le_listMax l)

lemma mem_adjusted_domain (l : List ℚ) (v : ℚ) (hv : v ∈ l) :
    (adjustDomain (domainOf l)).1 ≤ v ∧ v ≤ (adjustDomain (domainOf l)).2 :=
  ⟨le_trans (adjustDomain_extends (domainOf l)).1 (listMin_le l v hv),
   le_trans (le_listMax l v hv) (adjustDomain_extends (domainOf l)).2⟩

lemma toNat_round_le (x : ℚ) (c : ℕ) (h : x ≤ (c : ℚ)) :
    (round x).toNat ≤ c := by
  have h1 : round x ≤ round ((c : ℕ) : ℚ) := round_le_round h
  rw [round_natCast] at h1
  calc (round x).toNat ≤ ((c : ℕ) : ℤ).toNat := Int.toNat_le_toNat h1
    _ = c := Int.toNat_natCast c

/-- The dot-chart row of a value inside the (adjusted) domain lies on
the grid: it is at most `height - 1`. -/
lemma rowOf_lt (d : ℚ × ℚ) (h : ℕ) (hd : d.1 < d.2) (hh : 0 < h)
    (v : ℚ) (h1 : d.1 ≤ v) (h2 : v ≤ d.2) : rowOf d h v < h := by
  have hspan : (0 : ℚ) < d.2 - d.1 := by linarith
  have hratio : (d.2 - v) / (d.2 - d.1) ≤ 1 :=
    (div_le_one hspan).mpr (by linarith)
  have harg : (d.2 - v) / (d.2 - d.1) * ((h - 1 : ℕ) : ℚ) ≤ ((h - 1 : ℕ) : ℚ) :=
    mul_le_of_le_one_left (Nat.cast_nonneg _) hratio
  have := toNat_round_le _ _ harg
  unfold rowOf
  omega

lemma colOf_lt (d : ℚ × ℚ) (w : ℕ) (hd : d.1 < d.2) (hw : 0 < w)
    (k : ℚ) (h1 : d.1 ≤ k) (h2 : k ≤ d.2) : colOf d w k < w := by
  have hspan : (0 : ℚ) < d.2 - d.1 := by linarith
  have hratio : (k - d.1) / (d.2 - d.1) ≤ 1 :=
    (div_le_one hspan).mpr (by linarith)
  have harg : (k - d.1) / (d.2 - d.1) * ((w - 1 : ℕ) : ℚ) ≤ ((w - 1 : ℕ) : ℚ) :=
    mul_le_of_le_one_left (Nat.cast_nonneg _) hratio
  have := toNat_round_le _ _ harg
  unfold colOf
  omega

/-- The row formula of the spec, before clamping to `ℕ`: inside the
domain the rounded value is nonnegative, so `rowOf` is exactly the
spec's `round((ymax - v)/(ymax - ymin) * (height - 1))`. -/
lemma rowOf_eq_round (d : ℚ × ℚ) (h : ℕ) (hd : d.1 < d.2) (v : ℚ)
    (h2 : v ≤ d.2) :
    (rowOf d h v : ℤ) = round ((d.2 - v) / (d.2 - d.1) * ((h - 1 : ℕ) : ℚ)) := by
  have hspan : (0 : ℚ) < d.2 - d.1 := by linarith
  have harg : 0 ≤ (d.2 - v) / (d.2 - d.1) * ((h - 1 : ℕ) : ℚ) :=
    mul_nonneg (div_nonneg (by linarith) (le_of_lt hspan)) (Nat.cast_nonneg _)
  have h0 : (0 : ℤ) ≤ round ((d.2 - v) / (d.2 - d.1) * ((h - 1 : ℕ) : ℚ)) := by
    have := round_le_round harg
    rwa [round_zero] at this
  unfold rowOf
  exact Int.toNat_of_nonneg h0

lemma colOf_eq_round (d : ℚ × ℚ) (w : ℕ) (hd : d.1 < d.2) (k : ℚ)
    (h1 : d.1 ≤ k) :
    (colOf d w k : ℤ) = round ((k - d.1) / (d.2 - d.1) * ((w - 1 : ℕ) : ℚ)) := by
  have hspan : (0 : ℚ) < d.2 - d.1 := by linarith
  have harg : 0 ≤ (k - d.1) / (d.2 - d.1) * ((w - 1 : ℕ) : ℚ) :=
    mul_nonneg (div_nonneg (by linarith) (le_of_lt hspan)) (Nat.cast_nonneg _)
  have h0 : (0 : ℤ) ≤ round ((k - d.1) / (d.2 - d.1) * ((w - 1 : ℕ) : ℚ)) := by
    have := round_le_round harg
    rwa [round_zero] at this
  unfold colOf
  exact Int.toNat_of_nonneg h0

lemma colOf_mono (d : ℚ × ℚ) (w : ℕ) (hd : d.1 < d.2) (k k' : ℚ)
    (hk : k ≤ k') : colOf d w k ≤ colOf d w k' := by
  have hspan : (0 : ℚ) < d.2 - d.1 := by linarith
  unfold colOf
  apply Int.toNat_le_toNat
  apply round_le_round
  apply mul_le_mul_of_nonneg_right _ (Nat.cast_nonneg _)
  exact (div_le_div_iff_of_pos_right hspan).mpr (by linarith)

lemma rowOf_antimono (d : ℚ × ℚ) (h : ℕ) (hd : d.1 < d.2) (v v' : ℚ)
    (hv : v ≤ v') : rowOf d h v' ≤ rowOf d h v := by
  have hspan : (0 : ℚ) < d.2 - d.1 := by linarith
  unfold rowOf
  apply Int.toNat_le_toNat
  apply round_le_round
  apply mul_le_mul_of_nonneg_right _ (Nat.cast_nonneg _)
  exact (div_le_div_iff_of_pos_right hspan).mpr (by linarith)

lemma validateCell_bad (c : CellValue) (hc : ¬ c.isValidNumber) :
    validateCell c = .error .invalidData := by
  cases c <;> simp [CellValue.isValidNumber] at hc ⊢ <;> rfl

lemma validateSeries_error (data : List (CellValue × CellValue))
    (cx cy : CellValue) (hmem : (cx, cy) ∈ data)
    (hbad : ¬ cx.isValidNumber ∨ ¬ cy.isValidNumber) :
    validateSeries data = .error .invalidData := by
  induction data with
  | nil => cases hmem
  | cons p rest ih =>
    obtain ⟨px, py⟩ := p
    rcases List.mem_cons.mp hmem with h | h
    · injection h with hx hy
      subst hx
      subst hy
      rcases hbad with hb | hb
      · rw [validateSeries, validateCell_bad cx hb]
      · rw [validateSeries, validateCell_bad cy hb]
        cases validateCell cx <;> cases validateSeries rest <;> rfl
    · rw [validateSeries, ih h]
      cases validateCell px <;> cases validateCell py <;> rfl

lemma chunkFuel_nil {β : Type} (n : ℕ) (f : ℕ) :
    chunkFuel n f ([] : List β) = [] := by
  cases f <;> rfl

lemma chunkFuel_single {β : Type} (n : ℕ) (f : ℕ) (x : β) :
    chunkFuel n f [x] = [[x]] := by
  cases f with
  | zero => rfl
  | succ b =>
    show (if n = 0 then [[x]]
      else ([x] : List β).take n :: chunkFuel n b (([x] : List β).drop n)) = [[x]]
    by_cases hn : n = 0
    · rw [if_pos hn]
    · rw [if_neg hn]
      obtain ⟨m, rfl⟩ := Nat.exists_eq_succ_of_ne_zero hn
      have h1 : ([x] : List β).take (m + 1) = [x] := by simp
      have h2 : ([x] : List β).drop (m + 1) = [] := by simp
      rw [h1, h2, chunkFuel_nil]

lemma chunkFuel_congr {β : Type} (n : ℕ) :
    ∀ (f1 f2 : ℕ) (l : List β), l.length ≤ f1 + 1 → l.length ≤ f2 + 1 →
      chunkFuel n f1 l = chunkFuel n f2 l := by
  intro f1
  induction f1 with
  | zero =>
    intro f2 l h1 h2
    cases l with
    | nil => rw [chunkFuel_nil, chunkFuel_nil]
    | cons x xs =>
      have hxs : xs = [] := by
        simp only [List.length_cons] at h1
        exact List.length_eq_zero.mp (by omega)
      subst hxs
      rw [chunkFuel_single, chunkFuel_single]
  | succ a ih =>
    intro f2 l h1 h2
    cases l with
    | nil => rw [chunkFuel_nil, chunkFuel_nil]
    | cons x xs =>
      cases f2 with
      | zero =>
        have hxs : xs = [] := by
          simp only [List.length_cons] at h2
          exact List.length_eq_zero.mp (by omega)
        subst hxs
        rw [chunkFuel_single, chunkFuel_single]
      | succ b =>
        show (if n = 0 then [x :: xs]
            else (x :: xs).take n :: chunkFuel n a ((x :: xs).drop n)) =
          (if n = 0 then [x :: xs]
            else (x :: xs).take n :: chunkFuel n b ((x :: xs).drop n))
        by_cases hn : n = 0
        · rw [if_pos hn, if_pos hn]
        · rw [if_neg hn, if_neg hn]
          congr 1
          apply ih
          · simp only [List.length_drop, List.length_cons] at h1 ⊢
            omega
          · simp only [List.length_drop, List.length_cons] at h2 ⊢
            omega

lemma chunk_nil {β : Type} (n : ℕ) : chunk n ([] : List β) = [] := rfl

lemma chunk_cons {β : Type} (n : ℕ) (hn : n ≠ 0) (x : β) (xs : List β) :
    chunk n (x :: xs) = (x :: xs).take n :: chunk n ((x :: xs).drop n) := by
  show (if n = 0 then [x :: xs]
      else (x :: xs).take n :: chunkFuel n xs.length ((x :: xs).drop n)) =
    (x :: xs).take n :: chunk n ((x :: xs).drop n)
  rw [if_neg hn]
  congr 1
  apply chunkFuel_congr
  · simp only [List.length_drop, List.length_cons]
    omega
  · omega

lemma chunk_flatten_aux {β : Type} (n : ℕ) (hn : 0 < n) (N : ℕ) :
    ∀ (l : List β), l.length ≤ N → (chunk n l).flatten = l := by
  induction N with
  | zero =>
    intro l hl
    have h0 : l = [] := List.length_eq_zero.mp (Nat.le_zero.mp hl)
    subst h0
    simp [chunk_nil]
  | succ N ih =>
    intro l hl
    cases l with
    | nil => simp [chunk_nil]
    | cons x xs =>
      rw [chunk_cons n (Nat.pos_iff_ne_zero.mp hn) x xs, List.flatten_cons,
        ih ((x :: xs).drop n)
          (by simp only [List.length_drop, List.length_cons] at hl ⊢; omega),
        List.take_append_drop]

/-- Tiling the blocks into rows preserves the blocks and their order. -/
lemma chunk_flatten {β : Type} (n : ℕ) (hn : 0 < n) (l : List β) :
    (chunk n l).flatten = l :=
  chunk_flatten_aux n hn l.length l le_rfl

lemma chunk_mem_aux {β : Type} (n : ℕ) (hn : 0 < n) (N : ℕ) :
    ∀ (l : List β), l.length ≤ N → ∀ c ∈ chunk n l, c ≠ [] ∧ c.length ≤ n := by
  induction N with
  | zero =>
    intro l hl c hc
    have h0 : l = [] := List.length_eq_zero.mp (Nat.le_zero.mp hl)
    subst h0
    rw [chunk_nil] at hc
    cases hc
  | succ N ih =>
    intro l hl c hc
    cases l with
    | nil => rw [chunk_nil] at hc; cases hc
    | cons x xs =>
      rw [chunk_cons n (Nat.pos_iff_ne_zero.mp hn) x xs] at hc
      rcases List.mem_cons.mp hc with h | h
      · subst h
        refine ⟨?_, List.length_take_le n _⟩
        obtain ⟨m, rfl⟩ := Nat.exists_eq_succ_of_ne_zero (Nat.pos_iff_ne_zero.mp hn)
        simp
      · exact ih ((x :: xs).drop n)
          (by simp only [List.length_drop, List.length_cons] at hl ⊢; omega) c h

/-- Every row of blocks is nonempty and holds at most `perRow` blocks. -/
lemma chunk_mem_bounds {β : Type} (n : ℕ) (hn : 0 < n) (l : List β) :
    ∀ c ∈ chunk n l, c ≠ [] ∧ c.length ≤ n :=
  chunk_mem_aux n hn l.length l le_rfl

lemma chunk_dropLast_aux {β : Type} (n : ℕ) (hn : 0 < n) (N : ℕ) :
    ∀ (l : List β), l.length ≤ N →
      ∀ c ∈ (chunk n l).dropLast, c.length = n := by
  induction N with
  | zero =>
    intro l hl c hc
    have h0 : l = [] := List.length_eq_zero.mp (Nat.le_zero.mp hl)
    subst h0
    rw [chunk_nil] at hc
    cases hc
  | succ N ih =>
    intro l hl c hc
    cases l with
    | nil => rw [chunk_nil] at hc; cases hc
    | cons x xs =>
      have hn' : n ≠ 0 := Nat.pos_iff_ne_zero.mp hn
      rw [chunk_cons n hn' x xs] at hc
      cases hd : (x :: xs).drop n with
      | nil =>
        rw [hd, chunk_nil, List.dropLast_single] at hc
        cases hc
      | cons y ys =>
        rw [hd, chunk_cons n hn' y ys, List.dropLast_cons₂] at hc
        rcases List.mem_cons.mp hc with h | h
        · subst h
          have hcount : n < (x :: xs).length := by
            have := congrArg List.length hd
            simp only [List.length_drop, List.length_cons] at this ⊢
            omega
          simp only [List.length_take]
          omega
        · rw [← chunk_cons n hn' y ys, ← hd] at h
          exact ih ((x :: xs).drop n)
            (by simp only [List.length_drop, List.length_cons] at hl ⊢; omega) c h

/-- Every row of blocks except possibly the last holds exactly `perRow`
blocks. -/
lemma chunk_dropLast_length {β : Type} (n : ℕ) (hn : 0 < n) (l : List β) :
    ∀ c ∈ (chunk n l).dropLast, c.length = n :=
  chunk_dropLast_aux n hn l.length l le_rfl

/-- The groups of `groupByKey` appear in first-seen order of the
distinct grouping-key values. -/
lemma groupByKey_keys {β : Type} (rows : List (String × β)) :
    (groupByKey rows).map Prod.fst = firstSeenKeys (rows.map Prod.fst) := by
  unfold groupByKey
  rw [List.map_map]
  exact List.map_id' _

lemma validateLabeled_error (data : List (String × CellValue))
    (lab : String) (c : CellValue) (hmem : (lab, c) ∈ data)
    (hbad : ¬ c.isValidNumber) :
    validateLabeled data = .error .invalidData := by
  induction data with
  | nil => cases hmem
  | cons p rest ih =>
    obtain ⟨plab, pc⟩ := p
    rcases List.mem_cons.mp hmem with h | h
    · have h2 : pc = c := (Prod.ext_iff.mp h.symm).2
      rw [validateLabeled, h2, validateCell_bad c hbad]
    · rw [validateLabeled, ih h]
      cases validateCell pc <;> rfl

lemma barLength_eq_round (w : ℕ) (m v : ℚ) (hvm : v ≤ m) (hv : 0 ≤ v) :
    (barLength w m v : ℤ) = round (v / m * (w : ℚ)) := by
  unfold barLength
  rcases eq_or_lt_of_le hv with heq | hpos
  · rw [if_pos (le_of_eq heq.symm), ← heq]
    norm_num
  · rw [if_neg (not_le.mpr hpos)]
    have hm : 0 < m := lt_of_lt_of_le hpos hvm
    have harg : 0 ≤ v / m * (w : ℚ) :=
      mul_nonneg (div_nonneg hv (le_of_lt hm)) (Nat.cast_nonneg w)
    have h0 : (0 : ℤ) ≤ round (v / m * (w : ℚ)) := by
      have := round_le_round harg
      rwa [round_zero] at this
    exact Int.toNat_of_nonneg h0

lemma barLength_le_barLength (w : ℕ) (m a b : ℚ) (ha : 0 < a) (hab : a ≤ b)
    (hm : 0 < m) : barLength w m a ≤ barLength w m b := by
  unfold barLength
  rw [if_neg (not_le.mpr ha), if_neg (not_le.mpr (lt_of_lt_of_le ha hab))]
  apply Int.toNat_le_toNat
  apply round_le_round
  apply mul_le_mul_of_nonneg_right _ (Nat.cast_nonneg w)
  exact (div_le_div_iff_of_pos_right hm).mpr hab

lemma renderBarRows_getElem? (w : ℕ) (vals : List (String × ℚ)) (i : ℕ)
    (lab : String) (v : ℚ) (hi : vals[i]? = some (lab, v)) :
    (renderBarRows w vals)[i]? = some
      ⟨lab, String.mk (List.replicate
        (barLength w (listMax (vals.map Prod.snd)) v) barChar), v⟩ := by
  simp [renderBarRows, List.getElem?_map, hi]

lemma sum_le_length_mul (l : List ℚ) (c : ℚ) (h : ∀ x ∈ l, x ≤ c) :
    l.sum ≤ (l.length : ℚ) * c := by
  induction l with
  | nil => simp
  | cons a t ih =>
    simp only [List.sum_cons, List.length_cons]
    have ht := ih (fun x hx => h x (List.mem_cons_of_mem a hx))
    have ha := h a (List.mem_cons_self a t)
    have hexp : ((t.length : ℚ) + 1) * c = (t.length : ℚ) * c + c := by ring
    push_cast
    linarith

lemma length_mul_le_sum (l : List ℚ) (c : ℚ) (h : ∀ x ∈ l, c ≤ x) :
    (l.length : ℚ) * c ≤ l.sum := by
  induction l with
  | nil => simp
  | cons a t ih =>
    simp only [List.sum_cons, List.length_cons]
    have ht := ih (fun x hx => h x (List.mem_cons_of_mem a hx))
    have ha := h a (List.mem_cons_self a t)
    have hexp : ((t.length : ℚ) + 1) * c = (t.length : ℚ) * c + c := by ring
    push_cast
    linarith

/-- The mean of a nonempty list lies between any lower and upper bound
of its members. -/
lemma mean_bounds (l : List ℚ) (hne : l ≠ []) (lo hi : ℚ)
    (hlo : ∀ x ∈ l, lo ≤ x) (hhi : ∀ x ∈ l, x ≤ hi) :
    lo ≤ mean l ∧ mean l ≤ hi := by
  have hlen : (0 : ℚ) < l.length := by
    have := List.length_pos.mpr hne
    exact_mod_cast this
  unfold mean
  constructor
  · rw [le_div_iff₀ hlen]
    have := length_mul_le_sum l lo hlo
    linarith
  · rw [div_le_iff₀ hlen]
    have := sum_le_length_mul l hi hhi
    linarith

lemma bucket_subset (w : ℕ) (s : List (ℚ × ℚ)) (i : ℕ) :
    ∀ p ∈ bucket w s i, p ∈ s := by
  intro p hp
  unfold bucket at hp
  exact List.mem_of_mem_drop (List.mem_of_mem_take hp)

lemma bucket_ne_nil (w : ℕ) (s : List (ℚ × ℚ)) (i : ℕ) (hi : i < w)
    (hw : 0 < w) (h : w < s.length) : bucket w s i ≠ [] := by
  have hb := (length_bucket_bounds w s i hi hw).1
  have h1 : 1 ≤ s.length / w := (Nat.one_le_div_iff hw).mpr (le_of_lt h)
  intro hnil
  rw [hnil] at hb
  simp at hb
  omega

/-- Every downsampled point stays inside the key and value domains of
the original series. -/
lemma downsample_bounds (w : ℕ) (s : List (ℚ × ℚ)) (hw : 0 < w) :
    ∀ p ∈ downsample w s,
      listMin (s.map Prod.fst) ≤ p.1 ∧ p.1 ≤ listMax (s.map Prod.fst) ∧
      listMin (s.map Prod.snd) ≤ p.2 ∧ p.2 ≤ listMax (s.map Prod.snd) := by
  intro p hp
  by_cases hle : s.length ≤ w
  · rw [downsample_of_le w s hle] at hp
    exact ⟨listMin_le _ _ (List.mem_map_of_mem Prod.fst hp),
      le_listMax _ _ (List.mem_map_of_mem Prod.fst hp),
      listMin_le _ _ (List.mem_map_of_mem Prod.snd hp),
      le_listMax _ _ (List.mem_map_of_mem Prod.snd hp)⟩
  · unfold downsample at hp
    rw [if_neg hle] at hp
    simp only [List.mem_map, List.mem_range] at hp
    obtain ⟨i, hi, rfl⟩ := hp
    have hne : bucket w s i ≠ [] := bucket_ne_nil w s i hi hw (by omega)
    have hknil : (bucket w s i).map Prod.fst ≠ [] := by
      intro hmap; exact hne (List.map_eq_nil_iff.mp hmap)
    have hvnil : (bucket w s i).map Prod.snd ≠ [] := by
      intro hmap; exact hne (List.map_eq_nil_iff.mp hmap)
    have hkey := mean_bounds ((bucket w s i).map Prod.fst) hknil
      (listMin (s.map Prod.fst)) (listMax (s.map Prod.fst))
      (fun x hx => by
        obtain ⟨q, hq, rfl⟩ := List.mem_map.mp hx
        exact listMin_le _ _
          (List.mem_map_of_mem Prod.fst (bucket_subset w s i q hq)))
      (fun x hx => by
        obtain ⟨q, hq, rfl⟩ := List.mem_map.mp hx
        exact le_listMax _ _
          (List.mem_map_of_mem Prod.fst (bucket_subset w s i q hq)))
    have hval := mean_bounds ((bucket w s i).map Prod.snd) hvnil
      (listMin (s.map Prod.snd)) (listMax (s.map Prod.snd))
      (fun x hx => by
        obtain ⟨q, hq, rfl⟩ := List.mem_map.mp hx
        exact listMin_le _ _
          (List.mem_map_of_mem Prod.snd (bucket_subset w s i q hq)))
      (fun x hx => by
        obtain ⟨q, hq, rfl⟩ := List.mem_map.mp hx
        exact le_listMax _ _
          (List.mem_map_of_mem Prod.snd (bucket_subset w s i q hq)))
    exact ⟨hkey.1, hkey.2, hval.1, hval.2⟩

/-- Every dot-chart marker cell lies on the `width × height` grid. -/
lemma dotCells_in_grid (w h : ℕ) (hw : 0 < w) (hh : 0 < h)
    (pts : List (ℚ × ℚ)) :
    ∀ cell ∈ dotCells w h pts, cell.1 < w ∧ cell.2 < h := by
  intro cell hcell
  unfold dotCells xdomain ydomain at hcell
  simp only [List.mem_map] at hcell
  obtain ⟨p, hp, rfl⟩ := hcell
  have hx := mem_adjusted_domain (pts.map Prod.fst) p.1
    (List.mem_map_of_mem Prod.fst hp)
  have hy := mem_adjusted_domain (pts.map Prod.snd) p.2
    (List.mem_map_of_mem Prod.snd hp)
  exact ⟨colOf_lt _ w (domain_span_pos _) hw p.1 hx.1 hx.2,
    rowOf_lt _ h (domain_span_pos _) hh p.2 hy.1 hy.2⟩

/-- Every line-chart marker cell (of the possibly downsampled series)
lies on the `width × height` grid. -/
lemma lineCells_in_grid (w h : ℕ) (hw : 0 < w) (hh : 0 < h)
    (pts : List (ℚ × ℚ)) :
    ∀ cell ∈ lineCells w h pts, cell.1 < w ∧ cell.2 < h := by
  intro cell hcell
  unfold lineCells xdomain ydomain at hcell
  simp only [List.mem_map] at hcell
  obtain ⟨p, hp, rfl⟩ := hcell
  have hb := downsample_bounds w pts hw p hp
  have hx1 : (adjustDomain (domainOf (pts.map Prod.fst))).1 ≤ p.1 :=
    le_trans (adjustDomain_extends _).1 hb.1
  have hx2 : p.1 ≤ (adjustDomain (domainOf (pts.map Prod.fst))).2 :=
    le_trans hb.2.1 (adjustDomain_extends _).2
  have hy1 : (adjustDomain (domainOf (pts.map Prod.snd))).1 ≤ p.2 :=
    le_trans (adjustDomain_extends _).1 hb.2.2.1
  have hy2 : p.2 ≤ (adjustDomain (domainOf (pts.map Prod.snd))).2 :=
    le_trans hb.2.2.2 (adjustDomain_extends _).2
  exact ⟨colOf_lt _ w (domain_span_pos _) hw p.1 hx1 hx2,
    rowOf_lt _ h (domain_span_pos _) hh p.2 hy1 hy2⟩

/-- C1: for every series of `n` points and every positive target width
`w` with `n > w`, the downsampler returns exactly `w` points; the
series is partitioned into `w` contiguous buckets by index position
(their concatenation in order is the series), the buckets are of
approximately equal size (each within one of `n / w`), and the `i`-th
returned point is the pair (arithmetic mean of the keys in bucket `i`,
arithmetic mean of the values in bucket `i`). -/
theorem downsample_partition_means (w : ℕ) (s : List (ℚ × ℚ))
    (hw : 0 < w) (h : w < s.length) :
    (downsample w s).length = w ∧
    ((List.range w).map (bucket w s)).flatten = s ∧
    (∀ i, i < w → s.length / w ≤ (bucket w s i).length ∧
      (bucket w s i).length ≤ s.length / w + 1) ∧
    ∀ i, i < w → (downsample w s)[i]? =
      some (mean ((bucket w s i).map Prod.fst),
            mean ((bucket w s i).map Prod.snd)) := by
  have h' : ¬ s.length ≤ w := by omega
  exact ⟨length_downsample_le w s h', join_buckets w s hw,
    fun i hi => length_bucket_bounds w s i hi hw,
    fun i hi => downsample_getElem? w s h' i hi⟩

/-- Witness for C1 at the concrete series
`[(0,0),(1,2),(2,4),(3,6)]` and width `2`. -/
theorem downsample_partition_means_witness :
    (0 < 2 ∧ 2 < ([((0:ℚ),(0:ℚ)),(1,2),(2,4),(3,6)] : List (ℚ × ℚ)).length) ∧
    ((downsample 2 [((0:ℚ),(0:ℚ)),(1,2),(2,4),(3,6)]).length = 2 ∧
      ((List.range 2).map (bucket 2 [((0:ℚ),(0:ℚ)),(1,2),(2,4),(3,6)])).flatten =
        [((0:ℚ),(0:ℚ)),(1,2),(2,4),(3,6)] ∧
      (∀ i, i < 2 →
        ([((0:ℚ),(0:ℚ)),(1,2),(2,4),(3,6)] : List (ℚ × ℚ)).length / 2 ≤
          (bucket 2 [((0:ℚ),(0:ℚ)),(1,2),(2,4),(3,6)] i).length ∧
        (bucket 2 [((0:ℚ),(0:ℚ)),(1,2),(2,4),(3,6)] i).length ≤
          ([((0:ℚ),(0:ℚ)),(1,2),(2,4),(3,6)] : List (ℚ × ℚ)).length / 2 + 1) ∧
      ∀ i, i < 2 → (downsample 2 [((0:ℚ),(0:ℚ)),(1,2),(2,4),(3,6)])[i]? =
        some (mean ((bucket 2 [((0:ℚ),(0:ℚ)),(1,2),(2,4),(3,6)] i).map Prod.fst),
              mean ((bucket 2 [((0:ℚ),(0:ℚ)),(1,2),(2,4),(3,6)] i).map Prod.snd))) :=
  ⟨⟨by decide, by decide⟩,
    downsample_partition_means 2 [((0:ℚ),(0:ℚ)),(1,2),(2,4),(3,6)]
      (by decide) (by decide)⟩

/-- C7: the downsampler is the identity when the series already fits
the width (`series.length ≤ w`), and applying it twice with the same
width equals applying it once (the first output is already at most `w`
points, so the second application is a no-op). -/
theorem downsample_identity_idempotent (w : ℕ) (s : List (ℚ × ℚ)) :
    (s.length ≤ w → downsample w s = s) ∧
    downsample w (downsample w s) = downsample w s := by
  refine ⟨downsample_of_le w s, ?_⟩
  by_cases hle : s.length ≤ w
  · rw [downsample_of_le w s hle]
    exact downsample_of_le w s hle
  · exact downsample_of_le w _ (le_of_eq (length_downsample_le w s hle))

/-- Witness for C7 at the one-point series `[(7,3)]` and width `5`. -/
theorem downsample_identity_idempotent_witness :
    (([((7:ℚ),(3:ℚ))] : List (ℚ × ℚ)).length ≤ 5 ∧
      downsample 5 [((7:ℚ),(3:ℚ))] = [((7:ℚ),(3:ℚ))]) ∧
    downsample 5 (downsample 5 [((7:ℚ),(3:ℚ))]) =
      downsample 5 [((7:ℚ),(3:ℚ))] :=
  ⟨⟨by decide,
    (downsample_identity_idempotent 5 [((7:ℚ),(3:ℚ))]).1 (by decide)⟩,
    (downsample_identity_idempotent 5 [((7:ℚ),(3:ℚ))]).2⟩

/-- C2: in a bar chart the rendered bar of the category at position `i`
has length (in characters) `round(value / domainMax * barWidth)` when
the value is nonnegative, where `domainMax` is the maximum value across
all bars and `barWidth` the configured width; zero or negative values
render as zero-length bars.  In the spec's scenario (`A:10`, `B:5`,
width 10) the two bars have lengths 10 and 5. -/
theorem bar_length_formula (w : ℕ) (vals : List (String × ℚ)) :
    (∀ data, validateLabeled data = .ok vals →
      logBarChart data (some w) = .ok (renderBarRows w vals)) ∧
    (∀ (i : ℕ) (lab : String) (v : ℚ), vals[i]? = some (lab, v) →
      ∃ row : BarRow, (renderBarRows w vals)[i]? = some row ∧ row.label = lab ∧
        (0 ≤ v → (row.bar.length : ℤ) =
          round (v / listMax (vals.map Prod.snd) * (w : ℚ))) ∧
        (v ≤ 0 → row.bar.length = 0)) ∧
    (renderBarRows 10 [("A",(10:ℚ)),("B",(5:ℚ))]).map
      (fun r => r.bar.length) = [10, 5] := by
  refine ⟨?_, ?_, ?_⟩
  · intro data hdata
    unfold logBarChart
    rw [hdata]
    rfl
  · intro i lab v hi
    refine ⟨⟨lab, String.mk (List.replicate
        (barLength w (listMax (vals.map Prod.snd)) v) barChar), v⟩,
      renderBarRows_getElem? w vals i lab v hi, rfl, ?_, ?_⟩
    · intro hv
      have hmem : (lab, v) ∈ vals := List.getElem?_mem hi
      have hvm : v ≤ listMax (vals.map Prod.snd) :=
        le_listMax _ v (List.mem_map_of_mem Prod.snd hmem)
      have hlen : (String.mk (List.replicate
          (barLength w (listMax (vals.map Prod.snd)) v) barChar)).length =
          barLength w (listMax (vals.map Prod.snd)) v := by
        simp [String.length]
      show ((String.mk _).length : ℤ) = _
      rw [hlen]
      exact barLength_eq_round w (listMax (vals.map Prod.snd)) v hvm hv
    · intro hv
      show (String.mk _).length = 0
      simp [String.length, barLength, hv]
  · simp only [renderBarRows, List.map_cons, List.map_nil]
    norm_num [listMax, barLength, round_eq, String.length,
      List.length_replicate]
    decide

/-- Witness for C2 at the spec's scenario data `A:10`, `B:5`, width 10,
reading off the row of category `A`. -/
theorem bar_length_formula_witness :
    (([("A",(10:ℚ)),("B",(5:ℚ))] : List (String × ℚ))[0]? =
      some ("A", (10:ℚ))) ∧
    ∃ row : BarRow, (renderBarRows 10 [("A",(10:ℚ)),("B",(5:ℚ))])[0]? = some row ∧
      row.label = "A" ∧
      (0 ≤ (10:ℚ) → (row.bar.length : ℤ) =
        round ((10:ℚ) / listMax ([("A",(10:ℚ)),("B",(5:ℚ))].map Prod.snd) *
          ((10:ℕ) : ℚ))) ∧
      ((10:ℚ) ≤ 0 → row.bar.length = 0) :=
  ⟨rfl, (bar_length_formula 10 [("A",(10:ℚ)),("B",(5:ℚ))]).2.1 0 "A" 10 rfl⟩

/-- C8: with the bar width and the domain maximum held fixed, the
rendered bar length is monotonically non-decreasing in the underlying
value: for two bars of positive values `a ≤ b` in the same chart, the
bar rendered for `a` is at most as long as the bar rendered for `b`. -/
theorem bar_length_monotone (w : ℕ) (vals : List (String × ℚ))
    (i j : ℕ) (la lb : String) (a b : ℚ)
    (hi : vals[i]? = some (la, a)) (hj : vals[j]? = some (lb, b))
    (ha : 0 < a) (hab : a ≤ b) :
    ∀ ra rb, (renderBarRows w vals)[i]? = some ra →
      (renderBarRows w vals)[j]? = some rb →
      ra.bar.length ≤ rb.bar.length := by
  intro ra rb hra hrb
  rw [renderBarRows_getElem? w vals i la a hi] at hra
  rw [renderBarRows_getElem? w vals j lb b hj] at hrb
  obtain rfl : _ = ra := Option.some_inj.mp hra
  obtain rfl : _ = rb := Option.some_inj.mp hrb
  have hmem : (la, a) ∈ vals := List.getElem?_mem hi
  have hm : 0 < listMax (vals.map Prod.snd) :=
    lt_of_lt_of_le ha (le_listMax _ a (List.mem_map_of_mem Prod.snd hmem))
  show (String.mk _).length ≤ (String.mk _).length
  simp only [String.length, List.length_replicate]
  exact barLength_le_barLength w (listMax (vals.map Prod.snd)) a b ha hab hm

/-- Witness for C8 at the data `A:10`, `B:5`, width 10, comparing the
bar of `B` (value 5) with the bar of `A` (value 10). -/
theorem bar_length_monotone_witness :
    (([("A",(10:ℚ)),("B",(5:ℚ))] : List (String × ℚ))[1]? =
        some ("B", (5:ℚ)) ∧
      ([("A",(10:ℚ)),("B",(5:ℚ))] : List (String × ℚ))[0]? =
        some ("A", (10:ℚ)) ∧
      (0:ℚ) < 5 ∧ (5:ℚ) ≤ 10) ∧
    ∀ ra rb, (renderBarRows 10 [("A",(10:ℚ)),("B",(5:ℚ))])[1]? = some ra →
      (renderBarRows 10 [("A",(10:ℚ)),("B",(5:ℚ))])[0]? = some rb →
      ra.bar.length ≤ rb.bar.length :=
  ⟨⟨rfl, rfl, by decide, by decide⟩,
    bar_length_monotone 10 [("A",(10:ℚ)),("B",(5:ℚ))] 1 0 "B" "A" 5 10
      rfl rfl (by decide) (by decide)⟩

/-- C3 counterexample: four monotonically increasing (key, value)
points at the default width 60 and height 20 whose marker cells are
neither distinct nor of strictly increasing column index: with keys and
values 0, 1, 2, 1000 the first three points all land on cell (0, 19). -/
theorem dot_strict_increase_counterexample :
    List.Pairwise (fun p q : ℚ × ℚ => p.1 < q.1 ∧ p.2 < q.2)
      [((0:ℚ),(0:ℚ)),(1,1),(2,2),(1000,1000)] ∧
    logDotChart [(.finite 0, .finite 0),(.finite 1, .finite 1),
      (.finite 2, .finite 2),(.finite 1000, .finite 1000)] none none =
      .ok [(0,19),(0,19),(0,19),(59,0)] ∧
    ¬ ([(0,19),(0,19),(0,19),(59,0)] : List (ℕ × ℕ)).Pairwise (· ≠ ·) ∧
    ¬ List.Pairwise (· < ·)
      (([(0,19),(0,19),(0,19),(59,0)] : List (ℕ × ℕ)).map Prod.fst) := by
  refine ⟨by decide, ?_, by decide, by decide⟩
  have hv : validateSeries [(.finite 0, .finite 0),(.finite 1, .finite 1),
      (.finite 2, .finite 2),(.finite 1000, .finite 1000)] =
      .ok [((0:ℚ),(0:ℚ)),(1,1),(2,2),(1000,1000)] := rfl
  unfold logDotChart
  rw [hv]
  norm_num [dotCells, xdomain, ydomain, domainOf, adjustDomain, epsilon,
    listMin, listMax, colOf, rowOf, round_eq]
  decide

/-- C3 (amended): every value `v` in the adjusted y-domain is placed at
row `round((ymax - v)/(ymax - ymin) * (height-1))` (row 0 the top) and
every key at the analogous column; the column is monotonically
non-decreasing in the key and the row non-increasing in the value (but
for four arbitrary monotone points the cells need not be distinct nor
the columns strictly increasing); for the scenario's four evenly spaced
increasing points at width 60 and height 20 the four cells are
distinct, with strictly increasing columns and strictly decreasing
rows. -/
theorem dot_cell_mapping_amended (data : List (CellValue × CellValue))
    (pts : List (ℚ × ℚ)) (w h : ℕ)
    (hval : validateSeries data = .ok pts) :
    logDotChart data (some w) (some h) = .ok (dotCells w h pts) ∧
    dotCells w h pts = pts.map (fun p =>
      (colOf (xdomain pts) w p.1, rowOf (ydomain pts) h p.2)) ∧
    (∀ v : ℚ, v ≤ (ydomain pts).2 →
      (rowOf (ydomain pts) h v : ℤ) =
        round (((ydomain pts).2 - v) /
          ((ydomain pts).2 - (ydomain pts).1) * ((h - 1 : ℕ) : ℚ))) ∧
    (∀ k : ℚ, (xdomain pts).1 ≤ k →
      (colOf (xdomain pts) w k : ℤ) =
        round ((k - (xdomain pts).1) /
          ((xdomain pts).2 - (xdomain pts).1) * ((w - 1 : ℕ) : ℚ))) ∧
    (∀ k k' : ℚ, k ≤ k' →
      colOf (xdomain pts) w k ≤ colOf (xdomain pts) w k') ∧
    (∀ v v' : ℚ, v ≤ v' →
      rowOf (ydomain pts) h v' ≤ rowOf (ydomain pts) h v) ∧
    (dotCells 60 20 [((0:ℚ),(10:ℚ)),(1,20),(2,30),(3,40)] =
        [(0,19),(20,13),(39,6),(59,0)] ∧
      ([(0,19),(20,13),(39,6),(59,0)] : List (ℕ × ℕ)).Pairwise (· ≠ ·) ∧
      List.Pairwise (· < ·)
        (([(0,19),(20,13),(39,6),(59,0)] : List (ℕ × ℕ)).map Prod.fst) ∧
      List.Pairwise (fun a b => b < a)
        (([(0,19),(20,13),(39,6),(59,0)] : List (ℕ × ℕ)).map Prod.snd)) := by
  have hxspan : (xdomain pts).1 < (xdomain pts).2 :=
    domain_span_pos (pts.map Prod.fst)
  have hyspan : (ydomain pts).1 < (ydomain pts).2 :=
    domain_span_pos (pts.map Prod.snd)
  refine ⟨?_, rfl, ?_, ?_, ?_, ?_, ?_, by decide, by decide, by decide⟩
  · unfold logDotChart
    rw [hval]
    rfl
  · exact fun v hv2 => rowOf_eq_round _ h hyspan v hv2
  · exact fun k hk1 => colOf_eq_round _ w hxspan k hk1
  · exact fun k k' hkk => colOf_mono _ w hxspan k k' hkk
  · exact fun v v' hvv => rowOf_antimono _ h hyspan v v' hvv
  · norm_num [dotCells, xdomain, ydomain, domainOf, adjustDomain, epsilon,
      listMin, listMax, colOf, rowOf, round_eq]
    decide

/-- Witness for the amended C3 at the scenario's four evenly spaced
points. -/
theorem dot_cell_mapping_amended_witness :
    validateSeries [(.finite 0, .finite 10),(.finite 1, .finite 20),
      (.finite 2, .finite 30),(.finite 3, .finite 40)] =
      .ok [((0:ℚ),(10:ℚ)),(1,20),(2,30),(3,40)] ∧
    logDotChart [(.finite 0, .finite 10),(.finite 1, .finite 20),
      (.finite 2, .finite 30),(.finite 3, .finite 40)] (some 60) (some 20) =
      .ok (dotCells 60 20 [((0:ℚ),(10:ℚ)),(1,20),(2,30),(3,40)]) :=
  ⟨rfl, (dot_cell_mapping_amended
    [(.finite 0, .finite 10),(.finite 1, .finite 20),
      (.finite 2, .finite 30),(.finite 3, .finite 40)]
    [((0:ℚ),(10:ℚ)),(1,20),(2,30),(3,40)] 60 20 rfl).1⟩

/-- C4: with `fixedScales: true` every small-multiples group uses the
identical domain, the global one computed across all groups; with
`fixedScales: false` (the default) each group's domain is computed from
that group's data alone and may differ between groups. -/
theorem fixed_scales_domains (groups : List (List ℚ)) :
    (∀ g ∈ groups, domainForGroup groups true g = domainOf groups.flatten) ∧
    (∀ g1 ∈ groups, ∀ g2 ∈ groups,
      domainForGroup groups true g1 = domainForGroup groups true g2) ∧
    (∀ g ∈ groups, domainForGroup groups false g = domainOf g) ∧
    domainForGroup [[(1:ℚ)], [(2:ℚ)]] false [(1:ℚ)] ≠
      domainForGroup [[(1:ℚ)], [(2:ℚ)]] false [(2:ℚ)] :=
  ⟨fun _ _ => rfl, fun _ _ _ _ => rfl, fun _ _ => rfl, by decide⟩

/-- Witness for C4 at the two groups `[1]` and `[2]`. -/
theorem fixed_scales_domains_witness :
    domainForGroup [[(1:ℚ)], [(2:ℚ)]] true [(1:ℚ)] =
      domainOf ([[(1:ℚ)], [(2:ℚ)]] : List (List ℚ)).flatten ∧
    domainForGroup [[(1:ℚ)], [(2:ℚ)]] true [(1:ℚ)] =
      domainForGroup [[(1:ℚ)], [(2:ℚ)]] true [(2:ℚ)] ∧
    domainForGroup [[(1:ℚ)], [(2:ℚ)]] false [(1:ℚ)] = domainOf [(1:ℚ)] :=
  ⟨(fixed_scales_domains [[(1:ℚ)], [(2:ℚ)]]).1 [(1:ℚ)] (by decide),
   (fixed_scales_domains [[(1:ℚ)], [(2:ℚ)]]).2.1 [(1:ℚ)] (by decide)
     [(2:ℚ)] (by decide),
   (fixed_scales_domains [[(1:ℚ)], [(2:ℚ)]]).2.2.1 [(1:ℚ)] (by decide)⟩

/-- C5: a null, undefined or non-finite value where a number is
required makes the bar, dot and line chart calls all fail with
`InvalidData`; no cells or rows are produced (the call returns the
error instead of any output). -/
theorem invalid_data_fails_all_charts
    (sdata : List (CellValue × CellValue)) (bdata : List (String × CellValue))
    (w h : Option ℕ) (cx cy : CellValue) (hmem : (cx, cy) ∈ sdata)
    (hbad : ¬ cx.isValidNumber ∨ ¬ cy.isValidNumber)
    (lab : String) (c : CellValue) (hbmem : (lab, c) ∈ bdata)
    (hcbad : ¬ c.isValidNumber) :
    logDotChart sdata w h = .error .invalidData ∧
    logLineChart sdata w h = .error .invalidData ∧
    logBarChart bdata w = .error .invalidData := by
  have hs := validateSeries_error sdata cx cy hmem hbad
  have hb := validateLabeled_error bdata lab c hbmem hcbad
  refine ⟨?_, ?_, ?_⟩
  · unfold logDotChart
    rw [hs]
  · unfold logLineChart
    rw [hs]
  · unfold logBarChart
    rw [hb]

/-- Witness for C5: a series containing a NaN value and bar data
containing a null value. -/
theorem invalid_data_fails_all_charts_witness :
    ((CellValue.finite 1, CellValue.nan) ∈
        [((CellValue.finite 1 : CellValue), (CellValue.nan : CellValue))] ∧
      (¬ (CellValue.finite 1).isValidNumber ∨
        ¬ (CellValue.nan).isValidNumber) ∧
      ("A", CellValue.null) ∈ [("A", (CellValue.null : CellValue))] ∧
      ¬ (CellValue.null).isValidNumber) ∧
    logDotChart [(.finite 1, .nan)] none none = .error .invalidData ∧
    logLineChart [(.finite 1, .nan)] none none = .error .invalidData ∧
    logBarChart [("A", .null)] none = .error .invalidData :=
  ⟨⟨by decide, by decide, by decide, by decide⟩,
    invalid_data_fails_all_charts [(.finite 1, .nan)] [("A", .null)]
      none none (.finite 1) .nan (by decide) (by decide)
      "A" .null (by decide) (by decide)⟩

/-- C6: on an input whose derived value domain is degenerate
(min = max), the dot and line chart renders complete without error, the
adjusted domain has a strictly positive span (no division by zero), and
every produced marker cell lies on the `width × height` grid; for bar
charts the single value is rendered as 100% of the available width. -/
theorem degenerate_domain_safe (data : List (CellValue × CellValue))
    (pts : List (ℚ × ℚ)) (w h : ℕ) (hw : 0 < w) (hh : 0 < h)
    (hval : validateSeries data = .ok pts)
    (hdeg : (domainOf (pts.map Prod.snd)).1 =
      (domainOf (pts.map Prod.snd)).2) :
    logDotChart data (some w) (some h) = .ok (dotCells w h pts) ∧
    logLineChart data (some w) (some h) = .ok (lineCells w h pts) ∧
    (ydomain pts).1 < (ydomain pts).2 ∧
    (∀ cell ∈ dotCells w h pts, cell.1 < w ∧ cell.2 < h) ∧
    (∀ cell ∈ lineCells w h pts, cell.1 < w ∧ cell.2 < h) ∧
    (∀ v : ℚ, 0 < v → barLength w v v = w) := by
  refine ⟨?_, ?_, domain_span_pos (pts.map Prod.snd),
    dotCells_in_grid w h hw hh pts, lineCells_in_grid w h hw hh pts, ?_⟩
  · unfold logDotChart
    rw [hval]
    rfl
  · unfold logLineChart
    rw [hval]
    rfl
  · intro v hv
    unfold barLength
    rw [if_neg (not_le.mpr hv), div_self (ne_of_gt hv), one_mul,
      round_natCast, Int.toNat_natCast]

/-- Witness for C6 at a two-point series whose values are both 7. -/
theorem degenerate_domain_safe_witness :
    (0 < 10 ∧ 0 < 5 ∧
      validateSeries [(.finite 3, .finite 7), (.finite 5, .finite 7)] =
        .ok [((3:ℚ),(7:ℚ)),(5,7)] ∧
      (domainOf (([((3:ℚ),(7:ℚ)),(5,7)] : List (ℚ × ℚ)).map Prod.snd)).1 =
        (domainOf (([((3:ℚ),(7:ℚ)),(5,7)] : List (ℚ × ℚ)).map Prod.snd)).2) ∧
    (logDotChart [(.finite 3, .finite 7), (.finite 5, .finite 7)]
        (some 10) (some 5) =
      .ok (dotCells 10 5 [((3:ℚ),(7:ℚ)),(5,7)]) ∧
    logLineChart [(.finite 3, .finite 7), (.finite 5, .finite 7)]
        (some 10) (some 5) =
      .ok (lineCells 10 5 [((3:ℚ),(7:ℚ)),(5,7)]) ∧
    (ydomain [((3:ℚ),(7:ℚ)),(5,7)]).1 < (ydomain [((3:ℚ),(7:ℚ)),(5,7)]).2 ∧
    (∀ cell ∈ dotCells 10 5 [((3:ℚ),(7:ℚ)),(5,7)],
      cell.1 < 10 ∧ cell.2 < 5) ∧
    (∀ cell ∈ lineCells 10 5 [((3:ℚ),(7:ℚ)),(5,7)],
      cell.1 < 10 ∧ cell.2 < 5) ∧
    (∀ v : ℚ, 0 < v → barLength 10 v v = 10)) :=
  ⟨⟨by decide, by decide, rfl, by decide⟩,
    degenerate_domain_safe [(.finite 3, .finite 7), (.finite 5, .finite 7)]
      [((3:ℚ),(7:ℚ)),(5,7)] 10 5 (by decide) (by decide) rfl (by decide)⟩

/-- C9: with small multiples, the rendered blocks appear in first-seen
order of the distinct grouping-key values; the blocks are tiled into
rows of `smallMultiplesPerRow` blocks each (default 3, full rows hold
exactly `perRow` blocks, the rows concatenated recover all blocks in
order, and blocks beyond a full row wrap to a new, nonempty row), with
corresponding text lines of adjacent blocks concatenated horizontally;
in particular two groups with `smallMultiplesPerRow: 2` produce one row
holding both blocks side by side, each with its own title. -/
theorem small_multiples_layout {β : Type} (rows : List (String × β))
    (renderBlock : String → List β → List String) (bh perRow : ℕ)
    (hp : 0 < perRow) :
    ((groupByKey rows).map Prod.fst = firstSeenKeys (rows.map Prod.fst)) ∧
    (renderSmallMultiples renderBlock bh (some perRow) rows =
      (chunk perRow ((groupByKey rows).map
        (fun g => renderBlock g.1 g.2))).map (hcat bh)) ∧
    ((chunk perRow ((groupByKey rows).map
        (fun g => renderBlock g.1 g.2))).flatten =
      (groupByKey rows).map (fun g => renderBlock g.1 g.2)) ∧
    (∀ c ∈ chunk perRow ((groupByKey rows).map
        (fun g => renderBlock g.1 g.2)), c ≠ [] ∧ c.length ≤ perRow) ∧
    (∀ c ∈ (chunk perRow ((groupByKey rows).map
        (fun g => renderBlock g.1 g.2))).dropLast, c.length = perRow) ∧
    (renderSmallMultiples renderBlock bh none rows =
      renderSmallMultiples renderBlock bh (some 3) rows) ∧
    (renderSmallMultiples
        (fun (k : String) (v : List ℕ) =>
          [k, String.intercalate "," (v.map toString)]) 2 (some 2)
        [("A", 10), ("B", 20)] = [["A   B", "10   20"]]) :=
  ⟨groupByKey_keys rows, rfl, chunk_flatten perRow hp _,
    chunk_mem_bounds perRow hp _, chunk_dropLast_length perRow hp _,
    rfl, by decide⟩

/-- Witness for C9 at two groups `A` and `B` tiled two per row. -/
theorem small_multiples_layout_witness :
    (0 < 2) ∧
    ((groupByKey ([("A", 10), ("B", 20)] : List (String × ℕ))).map Prod.fst =
      firstSeenKeys (([("A", 10), ("B", 20)] :
        List (String × ℕ)).map Prod.fst)) ∧
    (renderSmallMultiples
        (fun (k : String) (v : List ℕ) =>
          [k, String.intercalate "," (v.map toString)]) 2 (some 2)
        [("A", 10), ("B", 20)] = [["A   B", "10   20"]]) :=
  ⟨by decide,
    (small_multiples_layout ([("A", 10), ("B", 20)] : List (String × ℕ))
      (fun k v => [k, String.intercalate "," (v.map toString)]) 2 2
      (by decide)).1,
    (small_multiples_layout ([("A", 10), ("B", 20)] : List (String × ℕ))
      (fun k v => [k, String.intercalate "," (v.map toString)]) 2 2
      (by decide)).2.2.2.2.2.2⟩

/-- C10: a bar chart whose options omit `width` uses a maximum bar
width of 40 characters (a single positive value renders as a bar of
exactly 40 characters), whereas dot and line charts default their
width to 60. -/
theorem default_widths :
    (∀ data : List (String × CellValue),
      logBarChart data none = logBarChart data (some 40)) ∧
    (∀ (data : List (CellValue × CellValue)) (h : Option ℕ),
      logDotChart data none h = logDotChart data (some 60) h) ∧
    (∀ (data : List (CellValue × CellValue)) (h : Option ℕ),
      logLineChart data none h = logLineChart data (some 60) h) ∧
    (∀ (lab : String) (v : ℚ), 0 < v →
      logBarChart [(lab, .finite v)] none =
        .ok [⟨lab, String.mk (List.replicate 40 barChar), v⟩]) ∧
    (∀ v : ℚ, 0 < v → barLength 40 v v = 40) := by
  have hbar : ∀ v : ℚ, 0 < v → barLength 40 v v = 40 := by
    intro v hv
    unfold barLength
    rw [if_neg (not_le.mpr hv), div_self (ne_of_gt hv), one_mul,
      round_natCast, Int.toNat_natCast]
  refine ⟨fun data => rfl, fun data h => rfl, fun data h => rfl, ?_, hbar⟩
  intro lab v hv
  have hval : validateLabeled [(lab, .finite v)] = .ok [(lab, v)] := rfl
  unfold logBarChart
  rw [hval]
  simp [renderBarRows, listMax, hbar v hv]

/-- Witness for C10: a single bar of value 7 with `width` omitted fills
the default 40 characters. -/
theorem default_widths_witness :
    ((0:ℚ) < 7) ∧
    logBarChart [("A", .finite 7)] none =
      .ok [⟨"A", String.mk (List.replicate 40 barChar), (7:ℚ)⟩] ∧
    barLength 40 (7:ℚ) 7 = 40 :=
  ⟨by decide, default_widths.2.2.2.1 "A" 7 (by decide),
    default_widths.2.2.2.2 7 (by decide)⟩

end Dataviz

